import Mathlib

/-!
# Verification of the tesseract-ocr-proj core against its specification

Shallow embedding of the repository's two algorithmic cores:

* `src/text_clean.py` — `clean_ocr_text` and `structure_text`, modelled on
  `List Char` with each regex substitution translated to an explicit scanner
  with the same (leftmost, greedy) matching semantics;
* `src/process.py` — `binarize_image` (OpenCV Otsu thresholding, translated
  from OpenCV's `getThreshVal_Otsu_8u` in exact rational arithmetic),
  `denoise_image` (5×5 Gaussian with OpenCV's fixed binomial kernel),
  `convert_to_grayscale`'s colour reduction, the median-threshold
  binarization and profile-energy skew estimation inside `correct_skew`,
  and `preprocess_image`;
* `src/ocr_extract.py` / `src/api.py` — the recognizer outcome handling and
  the empty-text fallback in `process_uploaded_image`.

Images are `List (List ℕ)` (rows of uint8 samples), text is `List Char`,
and fallible operations return `Except`/`Option`.
-/

namespace OcrProj

/-! ## Character classes -/

/-- Python whitespace as matched by `str.strip()` and the regex class `\s`
(ASCII part: space, tab, newline, carriage return, vertical tab, form feed). -/
def isPySpace (c : Char) : Bool :=
  c = ' ' || c = '\t' || c = '\n' || c = '\r' || c = '\x0b' || c = '\x0c'

/-- The regex class `[ \t]` from `re.sub(r'[ \t]+', ' ', text)`. -/
def isSpaceTab (c : Char) : Bool := c = ' ' || c = '\t'

/-- The regex class `[a-zA-Z0-9]` from `re.findall(r'[a-zA-Z0-9]', line)`. -/
def isAsciiAlnum (c : Char) : Bool :=
  ('a' ≤ c && c ≤ 'z') || ('A' ≤ c && c ≤ 'Z') || ('0' ≤ c && c ≤ '9')

/-- The regex class `\d` (ASCII digits) from `re.match(r'^\d+[\.\)]\s+', s)`. -/
def isAsciiDigit (c : Char) : Bool := '0' ≤ c && c ≤ '9'

/-! ## Regex substitutions used by `clean_ocr_text` -/

/-- `re.sub(r'[ \t]+', ' ', s)`: every maximal run of spaces/tabs becomes a
single space.  `inRun` records whether the previous character was part of a
run whose replacement space has already been emitted. -/
def collapseSpaceTabAux : Bool → List Char → List Char
  | _, [] => []
  | inRun, c :: t =>
    if isSpaceTab c then
      if inRun then collapseSpaceTabAux true t
      else ' ' :: collapseSpaceTabAux true t
    else c :: collapseSpaceTabAux false t

def collapseSpaceTab (l : List Char) : List Char := collapseSpaceTabAux false l

/-- Python `str.strip()`, left part. -/
def dropLeading (l : List Char) : List Char := l.dropWhile (fun c => isPySpace c)

/-- Python `str.strip()`, right part. -/
def dropTrailing (l : List Char) : List Char :=
  (l.reverse.dropWhile (fun c => isPySpace c)).reverse

/-- Python `str.strip()`. -/
def pyStrip (l : List Char) : List Char := dropTrailing (dropLeading l)

/-- `re.sub(r'\n\s*\n+', '\n\n', s)`.  A match starts at a `'\n'` whose
following maximal whitespace run contains another `'\n'`; with greedy
backtracking the match extends exactly through the last `'\n'` of that run
(trailing non-newline whitespace is left in place), and scanning resumes
after the match.  The `ℕ` argument is step fuel (the scanner consumes at
least one input character per step, so `l.length` steps always suffice);
checked against CPython's `re.sub` on the boundary cases. -/
def subBlankRunsF : ℕ → List Char → List Char
  | 0, l => l
  | _ + 1, [] => []
  | fuel + 1, c :: t =>
    let w := t.takeWhile (fun c => isPySpace c)
    if c = '\n' ∧ '\n' ∈ w then
      '\n' :: '\n' ::
        subBlankRunsF fuel
          ((w.reverse.takeWhile (fun x => x != '\n')).reverse ++ t.drop w.length)
    else c :: subBlankRunsF fuel t

def subBlankRuns (l : List Char) : List Char := subBlankRunsF l.length l

/-- `re.sub(r'\n+', '\n', s)`: every maximal run of newlines becomes a single
newline. -/
def collapseNewlinesAux : Bool → List Char → List Char
  | _, [] => []
  | inRun, c :: t =>
    if c = '\n' then
      if inRun then collapseNewlinesAux true t
      else '\n' :: collapseNewlinesAux true t
    else c :: collapseNewlinesAux false t

def collapseNewlines (l : List Char) : List Char := collapseNewlinesAux false l

/-- Python `s.split('\n')`. -/
def splitNl : List Char → List (List Char)
  | [] => [[]]
  | c :: t =>
    if c = '\n' then [] :: splitNl t
    else
      match splitNl t with
      | [] => [[c]]
      | h :: r => (c :: h) :: r

/-- Python `'\n'.join(lines)`. -/
def joinNl : List (List Char) → List Char
  | [] => []
  | [l] => l
  | l :: ls => l ++ '\n' :: joinNl ls

/-! ## `clean_ocr_text` and `structure_text` (src/text_clean.py) -/

/-- The condition of the list comprehension
`[line for line in lines if len(re.findall(r'[a-zA-Z0-9]', line)) >= 3 or not line.strip() == ""]`:
a line is kept when it has at least 3 alphanumeric characters or when its
stripped form is non-empty (`not (line.strip() == "")`). -/
def keepLine (l : List Char) : Bool :=
  decide (3 ≤ l.countP (fun c => isAsciiAlnum c)) || !(pyStrip l).isEmpty

/-- `clean_ocr_text` from src/text_clean.py, on the character list of the
input string.  The `text.isEmpty` test models Python's `if not text` for a
string argument. -/
def clean_ocr_text (text : List Char) : List Char :=
  if text.isEmpty then []
  else
    let s1 := pyStrip (collapseSpaceTab text)
    let s2 := subBlankRuns s1
    let s3 := collapseNewlines s2
    let kept := (splitNl s3).filter keepLine
    pyStrip (joinNl kept)

/-- `clean_ocr_text` including the `None` argument accepted by
`if not text: return ""`. -/
def clean_ocr_text_opt : Option (List Char) → List Char
  | none => []
  | some t => clean_ocr_text t

/-- The bullet alternatives of `re.match(r'^[-*•]\s+', stripped_line)`. -/
def isBulletChar (c : Char) : Bool := c = '-' || c = '*' || c = '•'

/-- `re.match(r'^[-*•]\s+', s)` succeeds: a marker character followed by
at least one whitespace character. -/
def matchBullet : List Char → Bool
  | c :: d :: _ => isBulletChar c && isPySpace d
  | _ => false

/-- `re.match(r'^\d+[\.\)]\s+', s)` succeeds: one or more digits, then `.` or
`)`, then at least one whitespace character.  Greedy `\d+` takes the maximal
digit run; shorter runs cannot match because the next character would again
be a digit. -/
def matchNumbered (l : List Char) : Bool :=
  let ds := l.takeWhile (fun c => isAsciiDigit c)
  !ds.isEmpty &&
    match l.drop ds.length with
    | c :: d :: _ => (c = '.' || c = ')') && isPySpace d
    | _ => false

/-- The list-marker test applied by `structure_text` to the stripped line. -/
def isListMarker (l : List Char) : Bool := matchBullet l || matchNumbered l

/-- The per-line body of the loop in `structure_text`. -/
def structureLine (line : List Char) : List Char :=
  let stripped := pyStrip line
  if isListMarker stripped then ' ' :: ' ' :: stripped else line

/-- `structure_text` from src/text_clean.py. -/
def structure_text (text : List Char) : List Char :=
  joinNl ((splitNl text).map structureLine)

/-- No two adjacent newline characters anywhere in the text: the
normalized-output invariant asserted by the specification. -/
def noNN : List Char → Bool
  | [] => true
  | c :: t => (!(decide (c = '\n') && decide (t.head? = some '\n'))) && noNN t

/-! ## Recognizer boundary (src/ocr_extract.py and src/api.py) -/

/-- Outcome of one attempted Tesseract invocation, covering the branches of
the `try`/`except` in `extract_text_from_image`. -/
inductive OcrOutcome where
  | ok (text : List Char)
  | fileNotFound
  | engineNotFound
  | otherError

/-- `extract_text_from_image` from src/ocr_extract.py: the recognized text on
success; every handler (`FileNotFoundError`, `pytesseract.TesseractNotFoundError`,
`Exception`) prints a message and returns the empty string. -/
def extract_text_from_image : OcrOutcome → List Char
  | OcrOutcome.ok t => t
  | OcrOutcome.fileNotFound => []
  | OcrOutcome.engineNotFound => []
  | OcrOutcome.otherError => []

/-- The OCR step of `process_uploaded_image` in src/api.py:
`ocr_text = extract_text_from_image(processed)`, then
`if not ocr_text and os.path.exists(processed_image_api_path):
ocr_text = extract_text_from_image(image_path)`.
`processedExists` models the `os.path.exists` test. -/
def api_ocr_stage (processed raw : OcrOutcome) (processedExists : Bool) : List Char :=
  let t := extract_text_from_image processed
  if t.isEmpty && processedExists then extract_text_from_image raw else t

/-! ## Image model (src/process.py)

A grayscale/binary image is a list of rows of uint8 samples (`List (List ℕ)`,
values `0..255`); a colour image is a list of rows of BGR triples.
Intermediate float quantities (class probabilities, medians, projection
energies) are exact rationals. -/

/-- Width of an image: the length of its first row (cv2 images are
rectangular). -/
def widthOf (img : List (List ℕ)) : ℕ := (img.headD []).length

/-- Pixel access with out-of-range reads giving 0. -/
def pget (img : List (List ℕ)) (i j : ℕ) : ℕ := (img.getD i []).getD j 0

/-- `cv2.cvtColor(img, cv2.COLOR_BGR2GRAY)` on one BGR pixel: OpenCV's
fixed-point luminance 0.299·R + 0.587·G + 0.114·B with 14-bit coefficients
and rounding. -/
def bgr2gray (p : ℕ × ℕ × ℕ) : ℕ :=
  (1868 * p.1 + 9617 * p.2.1 + 4899 * p.2.2 + 8192) / 16384

/-- The grayscale conversion performed by `convert_to_grayscale` and inside
`preprocess_image`. -/
def cvt_color_gray (img : List (List (ℕ × ℕ × ℕ))) : List (List ℕ) :=
  img.map (fun row => row.map bgr2gray)

/-- One step of OpenCV `borderInterpolate` for `BORDER_REFLECT_101`
(the default border of `cv2.GaussianBlur`). -/
def reflStep (n : ℕ) (p : ℤ) : ℤ :=
  if p < 0 then -p else if (n : ℤ) ≤ p then 2 * (n : ℤ) - 2 - p else p

/-- OpenCV `borderInterpolate(i, n, BORDER_REFLECT_101)`; with the ±2 reach
of a 5×5 kernel four reflection steps always land inside the image. -/
def reflect101 (n : ℕ) (i : ℤ) : ℕ :=
  if n ≤ 1 then 0 else (reflStep n (reflStep n (reflStep n (reflStep n i)))).toNat

/-- The separable kernel of `cv2.GaussianBlur(img, (5, 5), 0)`: for
`ksize = 5` and `sigma = 0` OpenCV uses the fixed binomial kernel
`[1, 4, 6, 4, 1] / 16`. -/
def kernel5 : List ℕ := [1, 4, 6, 4, 1]

/-- `denoise_image` from src/process.py: `cv2.GaussianBlur(gray_img, (5, 5), 0)`,
a 5×5 binomial convolution (total weight 256) with REFLECT_101 borders and
round-to-nearest on uint8. -/
def denoise_image (img : List (List ℕ)) : List (List ℕ) :=
  let h := img.length
  let w := widthOf img
  (List.range h).map (fun (i : ℕ) =>
    (List.range w).map (fun (j : ℕ) =>
      (((List.range 5).map (fun (di : ℕ) =>
        ((List.range 5).map (fun (dj : ℕ) =>
          kernel5.getD di 0 * kernel5.getD dj 0 *
            pget img (reflect101 h ((i : ℤ) + (di : ℤ) - 2))
                     (reflect101 w ((j : ℤ) + (dj : ℤ) - 2)))).sum)).sum
        + 128) / 256))

/-- One iteration of the threshold search in OpenCV's
`getThreshVal_Otsu_8u` (the implementation behind
`cv2.threshold(..., cv2.THRESH_BINARY + cv2.THRESH_OTSU)`), in exact
rational arithmetic: state is `(q1, mu1, max_sigma, max_val)`; the
`FLT_EPSILON` guards on the class weights become exact zero tests. -/
def otsuStep (N mu : ℚ) : (ℚ × ℚ × ℚ × ℕ) → (ℕ × ℕ) → (ℚ × ℚ × ℚ × ℕ)
  | (q1, mu1, maxSigma, maxVal), (i, hcount) =>
    let p_i : ℚ := (hcount : ℚ) / N
    let mu1s := mu1 * q1
    let q1n := q1 + p_i
    let q2 := 1 - q1n
    if q1n = 0 ∨ q2 = 0 then (q1n, mu1s, maxSigma, maxVal)
    else
      let mu1n := (mu1s + (i : ℚ) * p_i) / q1n
      let mu2 := (mu - q1n * mu1n) / q2
      let sigma := q1n * q2 * (mu1n - mu2) * (mu1n - mu2)
      if maxSigma < sigma then (q1n, mu1n, sigma, i) else (q1n, mu1n, maxSigma, maxVal)

/-- The 256-bin histogram enumeration `(i, h[i])` of the Otsu loop. -/
def otsuBins (pix : List ℕ) : List (ℕ × ℕ) :=
  (List.range 256).map (fun i => (i, pix.countP (fun p => p == i)))

/-- OpenCV's Otsu threshold: the first bin index maximizing the between-class
variance, 0 when every split is degenerate. -/
def otsuThreshold (pix : List ℕ) : ℕ :=
  let N : ℚ := (pix.length : ℚ)
  let mu : ℚ := (((otsuBins pix).map (fun b => (b.1 : ℚ) * (b.2 : ℚ))).sum) / N
  ((otsuBins pix).foldl (otsuStep N mu) (0, 0, 0, 0)).2.2.2

/-- `binarize_image` from src/process.py:
`cv2.threshold(blurred_img, 0, 255, cv2.THRESH_BINARY + cv2.THRESH_OTSU)` —
compute the Otsu threshold `t` over the image's histogram, then map each
pixel `p` to `255` if `p > t` and to `0` otherwise. -/
def binarize_image (img : List (List ℕ)) : List (List ℕ) :=
  let t := otsuThreshold img.flatten
  img.map (fun row => row.map (fun p => if t < p then 255 else 0))

/-- `np.median` over rationals: middle element (or mean of the two middle
elements) of the sorted data. -/
def npMedian (l : List ℚ) : ℚ :=
  let s := List.insertionSort (fun a b : ℚ => a ≤ b) l
  let n := s.length
  if n = 0 then 0
  else if n % 2 = 1 then s.getD (n / 2) 0
  else (s.getD (n / 2 - 1) 0 + s.getD (n / 2) 0) / 2

/-- The maximum pixel value, `image_gray.max()` (0 on an empty image). -/
def maxPixel (img : List (List ℕ)) : ℕ := img.flatten.foldr max 0

/-- The binarization inside `correct_skew`:
`if image_gray.max() > 1: image_binary = (image_gray > np.median(image_gray)).astype(np.uint8) * 255`
`else: image_binary = (image_gray * 255).astype(np.uint8)` (uint8 wrap-around
on the cast). -/
def skewBinarize (img : List (List ℕ)) : List (List ℕ) :=
  if 1 < maxPixel img then
    let t := npMedian (img.flatten.map (fun (p : ℕ) => (p : ℚ)))
    img.map (fun row => row.map (fun (p : ℕ) => if t < (p : ℚ) then 255 else 0))
  else
    img.map (fun row => row.map (fun (p : ℕ) => (p * 255) % 256))

/-- Mean of the squared entries of a projection profile.  The source computes
`np.sqrt(np.mean(np.abs(line) ** 2))`; the square root is strictly monotone
on the nonnegative means, so it never changes which angle attains the first
maximum and is elided to stay in exact rational arithmetic. -/
def meanSq (l : List ℚ) : ℚ := (l.map (fun x => x * x)).sum / (l.length : ℚ)

/-- The per-angle profile energies
`r = np.array([np.sqrt(np.mean(np.abs(line) ** 2)) for line in sinogram.transpose()])`
(squared, see `meanSq`): `skimage.transform.radon` defaults to the 180
projection angles `0°..179°`, one profile per angle.  `radonM` is the
projection operator: `radonM img θ` is the list of line integrals of `img`
at angle `θ`, each a nonnegative-weighted sum of pixel values. -/
def rProfileSq (radonM : List (List ℕ) → ℕ → List ℚ) (bin : List (List ℕ)) : List ℚ :=
  (List.range 180).map (fun θ => meanSq (radonM bin θ))

/-- `np.argmax`: index of the first occurrence of the maximum. -/
def argmaxAux : ℕ → ℕ → ℚ → List ℚ → ℕ
  | _, bi, _, [] => bi
  | i, bi, bv, x :: t => if bv < x then argmaxAux (i + 1) i x t else argmaxAux (i + 1) bi bv t

def argmaxIdx : List ℚ → ℕ
  | [] => 0
  | x :: t => argmaxAux 1 0 x t

/-- `rotation_angle_radon = np.argmax(r)` in `correct_skew`, applied to the
internally binarized image. -/
def rotationAngleRadon (radonM : List (List ℕ) → ℕ → List ℚ)
    (img : List (List ℕ)) : ℕ :=
  argmaxIdx (rProfileSq radonM (skewBinarize img))

/-- `skew_angle = -(90 - rotation_angle_radon)` in `correct_skew`. -/
def skew_angle (radonM : List (List ℕ) → ℕ → List ℚ)
    (img : List (List ℕ)) : ℤ :=
  -(90 - (rotationAngleRadon radonM img : ℤ))

/-- A concrete instance of the projection operator, used to instantiate the
parametric theorems: line `k` of angle `θ` sums the pixels on the sheared
discrete line `j = k + i·θ` (reads beyond the row are 0).  It stands in for
`skimage.transform.radon`'s rotate-and-sum geometry, with which it shares
the only property the degenerate-image claims rely on: every profile entry
is a sum of pixel values, so an all-zero image has identically zero
profiles. -/
def radonShear (img : List (List ℕ)) (θ : ℕ) : List ℚ :=
  (List.range (img.length + widthOf img)).map
    (fun k => ((List.range img.length).map (fun i => (pget img i (k + i * θ) : ℚ))).sum)

/-- `correct_skew` from src/process.py: estimate the skew angle, then
`cv2.warpAffine(image_cv, cv2.getRotationMatrix2D(center, skew_angle, 1.0),
(w, h), cv2.INTER_CUBIC, cv2.BORDER_REPLICATE)`.  The output canvas is
exactly `(w, h) = image_cv.shape[:2]`; each output pixel is a cubic
interpolation of source pixels under the inverse rotation — real-valued
trigonometry that affects only pixel values, never the canvas shape, so the
resampling kernel is the parameter `sample`. -/
def correct_skew (radonM : List (List ℕ) → ℕ → List ℚ)
    (sample : List (List ℕ) → ℤ → ℕ → ℕ → ℕ)
    (img : List (List ℕ)) : List (List ℕ) :=
  let angle := skew_angle radonM img
  (List.range img.length).map (fun i =>
    (List.range (widthOf img)).map (fun j => sample img angle i j))

/-- The failure taxonomy of the preprocessing pipeline.  `preprocess_image`
signals an unloadable source by logging and returning `None`; the spec's
taxonomy names this condition `InvalidImage`. -/
inductive PipelineError where
  | invalidImage

/-- `preprocess_image` from src/process.py.  `loaded` is the result of
`cv2.imread(image_path)` (`none` when the image cannot be decoded).  The
second component collects the `cv2.imwrite` calls performed, as
(path, image) pairs: on failure the function returns before any write; on
success it writes the binarized blur of the grayscale image (the skew
correction step is commented out in the source) and returns the output
path. -/
def preprocess_image (loaded : Option (List (List (ℕ × ℕ × ℕ))))
    (outputPath : List Char) :
    Except PipelineError (List Char) × List (List Char × List (List ℕ)) :=
  match loaded with
  | none => (Except.error PipelineError.invalidImage, [])
  | some img =>
      let finalBinaryImg := binarize_image (denoise_image (cvt_color_gray img))
      (Except.ok outputPath, [(outputPath, finalBinaryImg)])

/-! ## Helper lemmas about the text model -/

theorem head?_dropWhile_eq {α : Type} {p : α → Bool} {l : List α} {c : α}
    (h : (l.dropWhile p).head? = some c) : p c = false := by
  have h2 := List.head?_dropWhile_not p l
  rw [h] at h2
  exact h2

theorem noNN_cons {c : Char} {t : List Char} :
    noNN (c :: t) = ((!(decide (c = '\n') && decide (t.head? = some '\n'))) && noNN t) := rfl

theorem noNN_append_right {a b : List Char} (h : noNN (a ++ b) = true) : noNN b = true := by
  induction a with
  | nil => exact h
  | cons x a ih =>
    rw [List.cons_append, noNN_cons, Bool.and_eq_true] at h
    exact ih h.2

theorem noNN_append_left {a b : List Char} (h : noNN (a ++ b) = true) : noNN a = true := by
  induction a with
  | nil => rfl
  | cons x a ih =>
    rw [List.cons_append, noNN_cons, Bool.and_eq_true] at h
    rw [noNN_cons, Bool.and_eq_true]
    refine ⟨?_, ih h.2⟩
    cases a with
    | nil => simp
    | cons y a2 => simpa using h.1

theorem nlFree_noNN : ∀ {l : List Char}, '\n' ∉ l → noNN l = true := by
  intro l
  induction l with
  | nil => intro _; rfl
  | cons c t ih =>
    intro h
    rw [noNN_cons, Bool.and_eq_true]
    have hc : ¬(c = '\n') := fun e => h (by rw [← e]; exact List.mem_cons_self c t)
    exact ⟨by simp [hc], ih (fun m => h (List.mem_cons_of_mem _ m))⟩

theorem noNN_append_sep {l r : List Char} (hl : '\n' ∉ l) (hr : noNN r = true)
    (hh : ¬(r.head? = some '\n')) : noNN (l ++ '\n' :: r) = true := by
  induction l with
  | nil =>
    rw [List.nil_append, noNN_cons, Bool.and_eq_true]
    exact ⟨by simp [hh], hr⟩
  | cons c l ih =>
    have hc : ¬(c = '\n') := fun e => hl (by rw [← e]; exact List.mem_cons_self c l)
    rw [List.cons_append, noNN_cons, Bool.and_eq_true]
    exact ⟨by simp [hc], ih (fun m => hl (List.mem_cons_of_mem _ m))⟩

theorem joinNl_cons_cons {l l2 : List Char} {t : List (List Char)} :
    joinNl (l :: l2 :: t) = l ++ '\n' :: joinNl (l2 :: t) := rfl

theorem joinNl_head {l : List Char} {t : List (List Char)} (h : l ≠ []) :
    (joinNl (l :: t)).head? = l.head? := by
  cases t with
  | nil => rfl
  | cons l2 t2 =>
    rw [joinNl_cons_cons]
    cases l with
    | nil => exact absurd rfl h
    | cons c cs => rfl

theorem joinNl_noNN : ∀ L : List (List Char),
    (∀ l ∈ L, l ≠ [] ∧ '\n' ∉ l) → noNN (joinNl L) = true
  | [], _ => rfl
  | [l], h => nlFree_noNN (h l (List.mem_cons_self _ _)).2
  | l :: l2 :: t, h => by
    rw [joinNl_cons_cons]
    have hmem := h l (List.mem_cons_self _ _)
    have hrest : ∀ x ∈ l2 :: t, x ≠ [] ∧ '\n' ∉ x :=
      fun x hx => h x (List.mem_cons_of_mem _ hx)
    have hr := joinNl_noNN (l2 :: t) hrest
    apply noNN_append_sep hmem.2 hr
    rw [joinNl_head (hrest l2 (List.mem_cons_self _ _)).1]
    have h2 := hrest l2 (List.mem_cons_self _ _)
    cases l2 with
    | nil => simp
    | cons c cs =>
      simp only [List.head?_cons]
      intro e
      injection e with e
      exact h2.2 (by rw [← e]; exact List.mem_cons_self _ _)

theorem splitNl_ne_nil : ∀ s : List Char, splitNl s ≠ [] := by
  intro s
  match s with
  | [] => simp [splitNl]
  | c :: t =>
    rw [splitNl]
    by_cases hc : c = '\n'
    · simp [hc]
    · simp only [if_neg hc]
      cases hs : splitNl t <;> simp

theorem splitNl_nlFree : ∀ (s : List Char), ∀ l ∈ splitNl s, '\n' ∉ l
  | [], l, hl => by
    simp only [splitNl, List.mem_singleton] at hl
    subst hl
    simp
  | c :: t, l, hl => by
    rw [splitNl] at hl
    by_cases hc : c = '\n'
    · rw [if_pos hc] at hl
      rcases List.mem_cons.1 hl with h | h
      · subst h; simp
      · exact splitNl_nlFree t l h
    · rw [if_neg hc] at hl
      rcases hs : splitNl t with _ | ⟨hd, r⟩
      · exact absurd hs (splitNl_ne_nil t)
      · rw [hs] at hl
        rcases List.mem_cons.1 hl with h | h
        · subst h
          intro hmem
          rcases List.mem_cons.1 hmem with h2 | h2
          · exact hc h2.symm
          · exact splitNl_nlFree t hd (hs ▸ List.mem_cons_self _ _) h2
        · exact splitNl_nlFree t l (hs ▸ List.mem_cons_of_mem _ h)

theorem keepLine_ne_nil {l : List Char} (h : keepLine l = true) : l ≠ [] := by
  rintro rfl
  exact absurd h (by decide)

theorem dropTrailing_append (l : List Char) :
    dropTrailing l ++ (l.reverse.takeWhile (fun c => isPySpace c)).reverse = l := by
  have h := List.takeWhile_append_dropWhile (p := fun c => isPySpace c) (l := l.reverse)
  have h2 := congrArg List.reverse h
  rw [List.reverse_append, List.reverse_reverse] at h2
  exact h2

theorem noNN_pyStrip {l : List Char} (h : noNN l = true) : noNN (pyStrip l) = true := by
  have h1 : noNN (dropLeading l) = true := by
    apply noNN_append_right (a := l.takeWhile (fun c => isPySpace c))
    rw [dropLeading, List.takeWhile_append_dropWhile]
    exact h
  apply noNN_append_left
    (b := ((dropLeading l).reverse.takeWhile (fun c => isPySpace c)).reverse)
  rw [pyStrip, dropTrailing_append (dropLeading l)]
  exact h1

theorem mem_pyStrip {c : Char} {l : List Char} (h : c ∈ pyStrip l) : c ∈ l := by
  have h2 : c ∈ dropLeading l := by
    rw [← dropTrailing_append (dropLeading l)]
    exact List.mem_append_left _ h
  have e := List.takeWhile_append_dropWhile (p := fun c => isPySpace c) (l := l)
  rw [← e]
  exact List.mem_append_right _ h2

theorem pyStrip_head {l : List Char} {c : Char} (h : (pyStrip l).head? = some c) :
    isPySpace c = false := by
  have h1 : (dropTrailing (dropLeading l)).head? = some c := h
  have hd : (dropLeading l).head? = some c := by
    rw [← dropTrailing_append (dropLeading l)]
    cases hdt : dropTrailing (dropLeading l) with
    | nil => rw [hdt] at h1; simp at h1
    | cons x xs =>
      rw [hdt] at h1
      simp only [List.head?_cons, Option.some.injEq] at h1
      subst h1
      rfl
  exact head?_dropWhile_eq hd

theorem pyStrip_getLast {l : List Char} {c : Char} (h : (pyStrip l).getLast? = some c) :
    isPySpace c = false := by
  have h1 : ((dropLeading l).reverse.dropWhile (fun c => isPySpace c)).reverse.getLast? =
      some c := h
  rw [List.getLast?_reverse] at h1
  exact head?_dropWhile_eq h1

/-! ## Claims C1, C2, C9, C10 -/

/-- C1: the claim states that `clean_ocr_text "a\n\n\n\nb" = "a\n\nb"` (the
newline-consolidation pass leaves paragraph gaps intact).  The code disagrees
with its own comments (`# Keep paragraph breaks` / `# Consolidate other
newlines`): `re.sub(r'\n+', '\n', ...)` also collapses the `"\n\n"` the
previous pass just produced, so the result is `"a\nb"`. -/
theorem clean_ocr_text_paragraph_collapsed :
    clean_ocr_text ("a\n\n\n\nb".toList) = "a\nb".toList
    ∧ ¬("a\nb".toList = "a\n\nb".toList) := by
  constructor
  · decide
  · decide

/-- C2: the claim states that non-empty lines with fewer than 3 alphanumeric
characters are dropped and blank lines kept.  The filter condition
`len(re.findall(...)) >= 3 or not line.strip() == ""` keeps every line whose
stripped form is non-empty (and drops blank lines), contradicting the
comment above it (`# Remove very short lines that are likely noise`): the
noise lines `". ,"` and `"ab"` survive `clean_ocr_text` unchanged. -/
theorem clean_ocr_text_keeps_noise_lines :
    clean_ocr_text ("abcd\n. ,\nefgh".toList) = "abcd\n. ,\nefgh".toList
    ∧ clean_ocr_text ("abcd\nab\nefgh".toList) = "abcd\nab\nefgh".toList
    ∧ keepLine (". ,".toList) = true
    ∧ keepLine ("ab".toList) = true
    ∧ keepLine [] = false := by
  refine ⟨by decide, by decide, by decide, by decide, by decide⟩

/-- C9: `clean_ocr_text` maps empty input (`None` or `""`) to `""` (the
`if not text: return ""` guard), without any failure. -/
theorem clean_ocr_text_empty :
    clean_ocr_text_opt none = [] ∧ clean_ocr_text_opt (some []) = [] := by
  exact ⟨rfl, rfl⟩

/-- C10: for every non-empty input, the output of `clean_ocr_text` contains
no two consecutive newline characters and has no leading or trailing
whitespace.  (The newline-collapsing pass leaves no blank line, every empty
or whitespace-only line is dropped by the keep-filter, the kept lines are
newline-free, and the final `strip()` removes boundary whitespace.) -/
theorem clean_ocr_text_normalized (s : List Char) (h : ¬(s = [])) :
    noNN (clean_ocr_text s) = true
    ∧ (∀ c, (clean_ocr_text s).head? = some c → isPySpace c = false)
    ∧ (∀ c, (clean_ocr_text s).getLast? = some c → isPySpace c = false) := by
  have he : ¬(s.isEmpty = true) := by
    cases s with
    | nil => exact absurd rfl h
    | cons c t => simp
  have hrw : clean_ocr_text s =
      pyStrip (joinNl ((splitNl (collapseNewlines (subBlankRuns
        (pyStrip (collapseSpaceTab s))))).filter keepLine)) := by
    rw [clean_ocr_text, if_neg he]
  have hL : ∀ l ∈ (splitNl (collapseNewlines (subBlankRuns
      (pyStrip (collapseSpaceTab s))))).filter keepLine, l ≠ [] ∧ '\n' ∉ l := by
    intro l hl
    have h2 := List.mem_filter.1 hl
    exact ⟨keepLine_ne_nil h2.2, splitNl_nlFree _ l h2.1⟩
  have h1 := joinNl_noNN _ hL
  refine ⟨?_, ?_, ?_⟩
  · rw [hrw]; exact noNN_pyStrip h1
  · intro c hc; rw [hrw] at hc; exact pyStrip_head hc
  · intro c hc; rw [hrw] at hc; exact pyStrip_getLast hc

/-- Witness for C10 at a concrete input. -/
theorem clean_ocr_text_normalized_witness :
    (¬("x\n\n y".toList = [])) ∧
      (noNN (clean_ocr_text ("x\n\n y".toList)) = true
      ∧ (∀ c, (clean_ocr_text ("x\n\n y".toList)).head? = some c → isPySpace c = false)
      ∧ (∀ c, (clean_ocr_text ("x\n\n y".toList)).getLast? = some c →
          isPySpace c = false)) :=
  ⟨by decide, clean_ocr_text_normalized ("x\n\n y".toList) (by decide)⟩

/-! ## Split/join round trip and the structurer (C7) -/

theorem splitNl_of_nlFree : ∀ {l : List Char}, '\n' ∉ l → splitNl l = [l] := by
  intro l
  induction l with
  | nil => intro _; rfl
  | cons c t ih =>
    intro h
    have hc : ¬(c = '\n') := fun e => h (by rw [← e]; exact List.mem_cons_self c t)
    rw [splitNl, if_neg hc, ih (fun m => h (List.mem_cons_of_mem _ m))]

theorem splitNl_append_nl : ∀ {l : List Char} (r : List Char), '\n' ∉ l →
    splitNl (l ++ '\n' :: r) = l :: splitNl r := by
  intro l
  induction l with
  | nil =>
    intro r _
    rw [List.nil_append, splitNl, if_pos rfl]
  | cons c t ih =>
    intro r h
    have hc : ¬(c = '\n') := fun e => h (by rw [← e]; exact List.mem_cons_self c t)
    rw [List.cons_append, splitNl, if_neg hc, ih r (fun m => h (List.mem_cons_of_mem _ m))]

theorem splitNl_joinNl : ∀ L : List (List Char),
    (∀ l ∈ L, '\n' ∉ l) → ¬(L = []) → splitNl (joinNl L) = L
  | [], _, hne => absurd rfl hne
  | [l], h, _ => splitNl_of_nlFree (h l (List.mem_cons_self _ _))
  | l :: l2 :: t, h, _ => by
    rw [joinNl_cons_cons, splitNl_append_nl _ (h l (List.mem_cons_self _ _)),
      splitNl_joinNl (l2 :: t) (fun x hx => h x (List.mem_cons_of_mem _ hx)) (by simp)]

theorem structureLine_nlFree {l : List Char} (h : '\n' ∉ l) : '\n' ∉ structureLine l := by
  rw [structureLine]
  split
  · intro hm
    rcases List.mem_cons.1 hm with h1 | h1
    · exact absurd h1 (by decide)
    rcases List.mem_cons.1 h1 with h2 | h2
    · exact absurd h2 (by decide)
    · exact h (mem_pyStrip h2)
  · exact h

/-- C7: `structure_text` rewrites every line whose stripped form matches the
list-marker pattern to exactly two spaces followed by the stripped line, and
passes every other line through unchanged (with its original leading
whitespace). -/
theorem structure_text_spec (s line : List Char) :
    splitNl (structure_text s) = (splitNl s).map structureLine
    ∧ (isListMarker (pyStrip line) = true → structureLine line = ' ' :: ' ' :: pyStrip line)
    ∧ (isListMarker (pyStrip line) = false → structureLine line = line) := by
  refine ⟨?_, ?_, ?_⟩
  · have hmem : ∀ x ∈ (splitNl s).map structureLine, '\n' ∉ x := by
      intro x hx
      rcases List.mem_map.1 hx with ⟨l, hl, rfl⟩
      exact structureLine_nlFree (splitNl_nlFree s l hl)
    have hne : ¬((splitNl s).map structureLine = []) := by
      intro e
      exact splitNl_ne_nil s (List.map_eq_nil_iff.1 e)
    exact splitNl_joinNl _ hmem hne
  · intro hm; rw [structureLine, if_pos hm]
  · intro hm; rw [structureLine, if_neg (by rw [hm]; exact Bool.false_ne_true)]

/-- Witness for C7: the spec's own examples. -/
theorem structure_text_spec_witness :
    (isListMarker (pyStrip ("* Item two".toList)) = true
      ∧ structureLine ("* Item two".toList) = ' ' :: ' ' :: pyStrip ("* Item two".toList))
    ∧ (isListMarker (pyStrip ("Plain text".toList)) = false
      ∧ structureLine ("Plain text".toList) = "Plain text".toList) :=
  ⟨⟨by decide, (structure_text_spec [] ("* Item two".toList)).2.1 (by decide)⟩,
   ⟨by decide, (structure_text_spec [] ("Plain text".toList)).2.2 (by decide)⟩⟩

/-! ## Claims C4 and C5 -/

/-- C4 counterexample: engine unavailability
(`pytesseract.TesseractNotFoundError`) is caught inside
`extract_text_from_image` and returned as the empty string — the very value
returned for empty recognition output — and the caller's empty-text fallback
re-run then fires on the raw image even though the engine was unavailable.
So no distinct fatal condition reaches the caller, and the fallback is not
restricted to the genuinely-empty case. -/
theorem recognizer_unavailable_not_distinct :
    extract_text_from_image OcrOutcome.engineNotFound
        = extract_text_from_image (OcrOutcome.ok [])
    ∧ api_ocr_stage OcrOutcome.engineNotFound (OcrOutcome.ok ("hi".toList)) true
        = "hi".toList :=
  ⟨rfl, rfl⟩

/-- C4 (amended): every failure branch of `extract_text_from_image` —
including engine unavailability — returns the empty string, indistinguishable
from empty recognition output, and the pipeline's fallback re-run on the raw
image triggers in all of these cases (when the processed file exists). -/
theorem recognizer_failure_folded_to_empty (o raw : OcrOutcome)
    (h : o = OcrOutcome.fileNotFound ∨ o = OcrOutcome.engineNotFound
      ∨ o = OcrOutcome.otherError) :
    extract_text_from_image o = []
    ∧ api_ocr_stage o raw true = extract_text_from_image raw := by
  rcases h with rfl | rfl | rfl <;> exact ⟨rfl, rfl⟩

/-- Witness for the amended C4. -/
theorem recognizer_failure_folded_to_empty_witness :
    (OcrOutcome.engineNotFound = OcrOutcome.fileNotFound
      ∨ OcrOutcome.engineNotFound = OcrOutcome.engineNotFound
      ∨ OcrOutcome.engineNotFound = OcrOutcome.otherError)
    ∧ (extract_text_from_image OcrOutcome.engineNotFound = []
      ∧ api_ocr_stage OcrOutcome.engineNotFound (OcrOutcome.ok ("hi".toList)) true
          = extract_text_from_image (OcrOutcome.ok ("hi".toList))) :=
  ⟨Or.inr (Or.inl rfl),
    recognizer_failure_folded_to_empty _ _ (Or.inr (Or.inl rfl))⟩

/-- C5: when `cv2.imread` cannot load the source image, `preprocess_image`
returns before reaching `cv2.imwrite`: it fails (with the condition the
spec's taxonomy calls `InvalidImage`) and performs no write at all — no
partial output artifact exists; on success exactly one write of the final
binarized image is performed. -/
theorem preprocess_image_invalid_no_write (p : List Char) :
    preprocess_image none p = (Except.error PipelineError.invalidImage, [])
    ∧ ∀ img, preprocess_image (some img) p
        = (Except.ok p, [(p, binarize_image (denoise_image (cvt_color_gray img)))]) :=
  ⟨rfl, fun _ => rfl⟩

/-! ## Dimension preservation (C8) -/

theorem rect_map_length {img : List (List ℕ)} {w : ℕ} (h : ∀ r ∈ img, r.length = w) :
    img.map List.length = List.replicate img.length w := by
  induction img with
  | nil => rfl
  | cons r t ih =>
    simp only [List.map_cons, List.length_cons, List.replicate_succ]
    rw [h r (List.mem_cons_self _ _), ih (fun x hx => h x (List.mem_cons_of_mem _ hx))]

theorem widthOf_rect {img : List (List ℕ)} {w : ℕ} (h : ∀ r ∈ img, r.length = w)
    (hne : ¬(img = [])) : widthOf img = w := by
  cases img with
  | nil => exact absurd rfl hne
  | cons r t => exact h r (List.mem_cons_self _ _)

theorem canvas_map_length {img : List (List ℕ)} {w : ℕ}
    (hrect : ∀ r ∈ img, r.length = w) (out : List (List ℕ))
    (hlen : out.length = img.length)
    (hrow : ∀ r ∈ out, r.length = widthOf img) :
    out.map List.length = img.map List.length := by
  by_cases himg : img = []
  · subst himg
    have hout : out = [] := List.length_eq_zero.1 (by simpa using hlen)
    rw [hout]
  · have hout : ∀ r ∈ out, r.length = w := fun r hr => by
      rw [hrow r hr, widthOf_rect hrect himg]
    rw [rect_map_length hrect, rect_map_length hout, hlen]

/-- C8: every image-processing stage preserves the input's height and the
length of every row: the grayscale reduction and the Otsu binarization map
row-for-row, and the Gaussian blur and the skew-corrected `warpAffine`
resample into a canvas of exactly the input's `(w, h)`. -/
theorem stage_dims (cimg : List (List (ℕ × ℕ × ℕ))) (img : List (List ℕ)) (w : ℕ)
    (radonM : List (List ℕ) → ℕ → List ℚ) (sample : List (List ℕ) → ℤ → ℕ → ℕ → ℕ)
    (hrect : ∀ r ∈ img, r.length = w) :
    (cvt_color_gray cimg).map List.length = cimg.map List.length
    ∧ (binarize_image img).map List.length = img.map List.length
    ∧ (denoise_image img).map List.length = img.map List.length
    ∧ (correct_skew radonM sample img).map List.length = img.map List.length := by
  refine ⟨?_, ?_, ?_, ?_⟩
  · simp [cvt_color_gray, List.map_map, Function.comp_def]
  · simp [binarize_image, List.map_map, Function.comp_def]
  · refine canvas_map_length hrect _ (by simp [denoise_image]) ?_
    intro r hr
    simp only [denoise_image, List.mem_map] at hr
    rcases hr with ⟨i, _, rfl⟩
    simp
  · refine canvas_map_length hrect _ (by simp [correct_skew]) ?_
    intro r hr
    simp only [correct_skew, List.mem_map] at hr
    rcases hr with ⟨i, _, rfl⟩
    simp

/-- Witness for C8 at a concrete rectangular image. -/
theorem stage_dims_witness :
    (∀ r ∈ [[0, 255], [255, 0]], r.length = 2)
    ∧ ((cvt_color_gray [[(1, 2, 3)]]).map List.length = [[(1, 2, 3)]].map List.length
      ∧ (binarize_image [[0, 255], [255, 0]]).map List.length
          = [[0, 255], [255, 0]].map List.length
      ∧ (denoise_image [[0, 255], [255, 0]]).map List.length
          = [[0, 255], [255, 0]].map List.length
      ∧ (correct_skew radonShear (fun _ _ _ _ => 0) [[0, 255], [255, 0]]).map List.length
          = [[0, 255], [255, 0]].map List.length) :=
  ⟨by decide,
    stage_dims [[(1, 2, 3)]] [[0, 255], [255, 0]] 2 radonShear (fun _ _ _ _ => 0)
      (by decide)⟩

/-! ## Otsu binarization (C6) -/

theorem list_map_self {α : Type} (l : List α) (f : α → α) (h : ∀ x ∈ l, f x = x) :
    l.map f = l := by
  induction l with
  | nil => rfl
  | cons x t ih =>
    rw [List.map_cons, h x (List.mem_cons_self _ _),
      ih (fun y hy => h y (List.mem_cons_of_mem _ hy))]

theorem list_sum_div (l : List ℚ) (N : ℚ) : (l.map (fun x => x / N)).sum = l.sum / N := by
  induction l with
  | nil => simp
  | cons x t ih => simp [ih, add_div]

theorem list_map_add_sum {α : Type} (f g : α → ℕ) (l : List α) :
    (l.map (fun i => f i + g i)).sum = (l.map f).sum + (l.map g).sum := by
  induction l with
  | nil => rfl
  | cons x t ih =>
    simp only [List.map_cons, List.sum_cons, ih]
    omega

theorem cast_map_sum {α : Type} (f : α → ℕ) (l : List α) :
    (l.map (fun a => ((f a : ℕ) : ℚ))).sum = (((l.map f).sum : ℕ) : ℚ) := by
  induction l with
  | nil => simp
  | cons x t ih => simp only [List.map_cons, List.sum_cons, ih, Nat.cast_add]

theorem range_map_sum_succ (f : ℕ → ℚ) (n : ℕ) :
    ((List.range (n + 1)).map f).sum = ((List.range n).map f).sum + f n := by
  rw [List.range_succ, List.map_append, List.sum_append]
  simp

theorem range_count_indicator (n a : ℕ) :
    ((List.range n).map (fun i => if a == i then (1 : ℕ) else 0)).sum
      = if a < n then 1 else 0 := by
  induction n with
  | zero => simp
  | succ n ih =>
    rw [List.range_succ, List.map_append, List.sum_append, ih]
    simp only [List.map_cons, List.map_nil, List.sum_cons, List.sum_nil, beq_iff_eq]
    split_ifs <;> omega

theorem countP_range_sum : ∀ pix : List ℕ, (∀ p ∈ pix, p < 256) →
    ((List.range 256).map (fun i => pix.countP (fun p => p == i))).sum = pix.length
  | [], _ => by
    simp only [List.countP_nil, List.length_nil]
    rw [List.map_const', List.sum_const_nat, Nat.mul_zero]
  | a :: t, h => by
    have ht := countP_range_sum t (fun p hp => h p (List.mem_cons_of_mem _ hp))
    have ha := h a (List.mem_cons_self _ _)
    simp only [List.countP_cons]
    rw [list_map_add_sum, ht, range_count_indicator, if_pos ha, List.length_cons]

theorem otsu_foldl_q1 (N mu : ℚ) : ∀ (bins : List (ℕ × ℕ)) (st : ℚ × ℚ × ℚ × ℕ),
    (bins.foldl (otsuStep N mu) st).1 = st.1 + (bins.map (fun b => (b.2 : ℚ) / N)).sum
  | [], st => by simp
  | (i, hc) :: bins, st => by
    rw [List.foldl_cons, otsu_foldl_q1 N mu bins (otsuStep N mu st (i, hc))]
    have h1 : (otsuStep N mu st (i, hc)).1 = st.1 + (hc : ℚ) / N := by
      obtain ⟨q1, m, ms, mv⟩ := st
      simp only [otsuStep]
      split
      · rfl
      · split <;> rfl
    rw [h1, List.map_cons, List.sum_cons]
    ring

theorem otsu_foldl_mv (N mu : ℚ) : ∀ (bins : List (ℕ × ℕ)) (st : ℚ × ℚ × ℚ × ℕ),
    (∀ b ∈ bins, b.1 ≤ 254) → st.2.2.2 ≤ 254 →
    (bins.foldl (otsuStep N mu) st).2.2.2 ≤ 254
  | [], _, _, h => h
  | (i, hc) :: bins, st, hb, h => by
    rw [List.foldl_cons]
    apply otsu_foldl_mv N mu bins _ (fun b m => hb b (List.mem_cons_of_mem _ m))
    obtain ⟨q1, m, ms, mv⟩ := st
    simp only [otsuStep]
    split
    · exact h
    · split
      · exact hb (i, hc) (List.mem_cons_self _ _)
      · exact h

theorem otsuStep_guard (N mu : ℚ) (st : ℚ × ℚ × ℚ × ℕ) (i hc : ℕ)
    (h : st.1 + (hc : ℚ) / N = 0 ∨ 1 - (st.1 + (hc : ℚ) / N) = 0) :
    (otsuStep N mu st (i, hc)).2.2.2 = st.2.2.2 := by
  obtain ⟨q1, m, ms, mv⟩ := st
  simp only [otsuStep]
  split
  · rfl
  · rename_i hg
    exact absurd h hg

theorem otsuThreshold_le (pix : List ℕ) (hp : ∀ p ∈ pix, p ≤ 255) :
    otsuThreshold pix ≤ 254 := by
  show ((otsuBins pix).foldl
      (otsuStep ((pix.length : ℚ))
        ((((otsuBins pix).map (fun b => (b.1 : ℚ) * (b.2 : ℚ))).sum) / ((pix.length : ℚ))))
      (0, 0, 0, 0)).2.2.2 ≤ 254
  generalize (((otsuBins pix).map (fun b => (b.1 : ℚ) * (b.2 : ℚ))).sum)
      / ((pix.length : ℚ)) = mu
  have hsplit : otsuBins pix
      = ((List.range 255).map (fun i => (i, pix.countP (fun p => p == i))))
        ++ [(255, pix.countP (fun p => p == 255))] := by
    rw [otsuBins, show (256 : ℕ) = 255 + 1 from rfl, List.range_succ, List.map_append]
    rfl
  rw [hsplit, List.foldl_append, List.foldl_cons, List.foldl_nil]
  set N : ℚ := (pix.length : ℚ) with hN
  set st := ((List.range 255).map (fun i => (i, pix.countP (fun p => p == i)))).foldl
      (otsuStep N mu) ((0 : ℚ), (0 : ℚ), (0 : ℚ), (0 : ℕ)) with hst
  have hmv : st.2.2.2 ≤ 254 := by
    rw [hst]
    apply otsu_foldl_mv
    · intro b hb
      rcases List.mem_map.1 hb with ⟨i, hi, rfl⟩
      have := List.mem_range.1 hi
      omega
    · exact Nat.zero_le 254
  have hq1 : st.1
      = (((List.range 255).map (fun i => ((pix.countP (fun p => p == i) : ℕ) : ℚ))).sum)
        / N := by
    rw [hst, otsu_foldl_q1, List.map_map]
    rw [← list_sum_div (((List.range 255).map
      (fun i => ((pix.countP (fun p => p == i) : ℕ) : ℚ)))) N, List.map_map]
    simp [Function.comp_def]
  rw [otsuStep_guard]
  · exact hmv
  · have htot : st.1 + ((pix.countP (fun p => p == 255) : ℕ) : ℚ) / N
        = (((List.range 256).map
            (fun i => ((pix.countP (fun p => p == i) : ℕ) : ℚ))).sum) / N := by
      rw [hq1, show (256 : ℕ) = 255 + 1 from rfl,
        range_map_sum_succ (fun i => ((pix.countP (fun p => p == i) : ℕ) : ℚ)) 255,
        add_div]
    by_cases hnil : pix = []
    · left
      rw [htot]
      subst hnil
      simp only [List.countP_nil, Nat.cast_zero]
      rw [List.map_const', List.sum_replicate, smul_zero, zero_div]
    · right
      rw [htot, cast_map_sum,
        countP_range_sum pix (fun p hps => by have := hp p hps; omega)]
      have hN0 : ((pix.length : ℕ) : ℚ) ≠ 0 :=
        Nat.cast_ne_zero.2 (fun e => hnil (List.length_eq_zero.1 e))
      rw [hN, div_self hN0, sub_self]

/-- C6: `binarize_image` (Otsu threshold + `THRESH_BINARY`) is idempotent on
two-level images — every image whose pixels all lie in 0 or 255 is returned
unchanged (the Otsu search never selects a threshold above 254, because the
split at bin 255 always has an empty upper class and is skipped) — and its
output on any input only contains the values 0 and 255. -/
theorem binarize_image_idempotent (img : List (List ℕ)) :
    ((∀ p ∈ img.flatten, p = 0 ∨ p = 255) → binarize_image img = img)
    ∧ (∀ p ∈ (binarize_image img).flatten, p = 0 ∨ p = 255) := by
  constructor
  · intro h2
    have ht : otsuThreshold img.flatten ≤ 254 :=
      otsuThreshold_le _ (fun p hps => by rcases h2 p hps with rfl | rfl <;> omega)
    rw [binarize_image]
    apply list_map_self
    intro row hrow
    apply list_map_self
    intro p hps
    rcases h2 p (List.mem_flatten.2 ⟨row, hrow, hps⟩) with rfl | rfl
    · simp
    · rw [if_pos (by omega)]
  · intro p hps
    rw [binarize_image] at hps
    rcases List.mem_flatten.1 hps with ⟨row, hrow, hp2⟩
    rcases List.mem_map.1 hrow with ⟨row0, _, rfl⟩
    rcases List.mem_map.1 hp2 with ⟨p0, _, rfl⟩
    split
    · right; rfl
    · left; rfl

/-- Witness for C6 at a concrete two-level image. -/
theorem binarize_image_idempotent_witness :
    (∀ p ∈ ([[0, 255], [255, 0]] : List (List ℕ)).flatten, p = 0 ∨ p = 255)
    ∧ binarize_image [[0, 255], [255, 0]] = [[0, 255], [255, 0]] :=
  ⟨by decide, (binarize_image_idempotent [[0, 255], [255, 0]]).1 (by decide)⟩

/-! ## Degenerate-image skew estimation (C3) -/

theorem getD_all_eq {l : List ℚ} {v : ℚ} (h : ∀ x ∈ l, x = v) {i : ℕ} (hi : i < l.length) :
    l.getD i 0 = v := by
  rw [List.getD_eq_getElem?_getD, List.getElem?_eq_getElem hi, Option.getD_some]
  exact h _ (List.getElem_mem hi)

theorem getD_nat_zero {l : List ℕ} (h : ∀ p ∈ l, p = 0) (j : ℕ) : l.getD j 0 = 0 := by
  rcases Nat.lt_or_ge j l.length with hj | hj
  · rw [List.getD_eq_getElem?_getD, List.getElem?_eq_getElem hj, Option.getD_some]
    exact h _ (List.getElem_mem hj)
  · rw [List.getD_eq_getElem?_getD, List.getElem?_eq_none hj]
    rfl

theorem pget_zero {img : List (List ℕ)} (h : ∀ p ∈ img.flatten, p = 0) (i j : ℕ) :
    pget img i j = 0 := by
  rw [pget]
  apply getD_nat_zero
  intro p hp
  rcases Nat.lt_or_ge i img.length with hi | hi
  · have hrow : img.getD i [] = img[i] := by
      rw [List.getD_eq_getElem?_getD, List.getElem?_eq_getElem hi, Option.getD_some]
    rw [hrow] at hp
    exact h p (List.mem_flatten.2 ⟨_, List.getElem_mem hi, hp⟩)
  · rw [List.getD_eq_getElem?_getD, List.getElem?_eq_none hi] at hp
    exact absurd hp (List.not_mem_nil p)

/-- The property of `skimage.transform.radon` that the degenerate-image
analysis relies on: every line integral of the all-zero image is zero.  It
holds for the concrete instance `radonShear` by direct computation, and for
the library's rotate-and-sum projection because each profile sample is a
nonnegative-weighted sum of pixel values. -/
theorem radonShear_zero (M : List (List ℕ)) (θ : ℕ)
    (h : ∀ p ∈ M.flatten, p = 0) : ∀ x ∈ radonShear M θ, x = 0 := by
  intro x hx
  rw [radonShear] at hx
  rcases List.mem_map.1 hx with ⟨k, _, rfl⟩
  apply List.sum_eq_zero
  intro q hq
  rcases List.mem_map.1 hq with ⟨i, _, rfl⟩
  rw [pget_zero h]
  exact Nat.cast_zero

theorem meanSq_zero (l : List ℚ) (h : ∀ x ∈ l, x = 0) : meanSq l = 0 := by
  rw [meanSq]
  have hs : (l.map (fun x => x * x)).sum = 0 := by
    apply List.sum_eq_zero
    intro q hq
    rcases List.mem_map.1 hq with ⟨x, hx, rfl⟩
    rw [h x hx, mul_zero]
  rw [hs, zero_div]

theorem argmaxAux_zero : ∀ (t : List ℚ) (i bi : ℕ), (∀ x ∈ t, x = 0) →
    argmaxAux i bi 0 t = bi
  | [], _, _, _ => rfl
  | x :: t, i, bi, h => by
    rw [argmaxAux, h x (List.mem_cons_self _ _), if_neg (lt_irrefl (0 : ℚ))]
    exact argmaxAux_zero t (i + 1) bi (fun y hy => h y (List.mem_cons_of_mem _ hy))

theorem argmaxIdx_zero (l : List ℚ) (h : ∀ x ∈ l, x = 0) : argmaxIdx l = 0 := by
  cases l with
  | nil => rfl
  | cons x t =>
    rw [argmaxIdx, h x (List.mem_cons_self _ _)]
    exact argmaxAux_zero t 1 0 (fun y hy => h y (List.mem_cons_of_mem _ hy))

theorem foldr_max_mem : ∀ l : List ℕ, l.foldr max 0 = 0 ∨ l.foldr max 0 ∈ l
  | [] => Or.inl rfl
  | x :: t => by
    rw [List.foldr_cons]
    rcases foldr_max_mem t with h | h
    · rw [h, Nat.max_zero]
      exact Or.inr (List.mem_cons_self _ _)
    · rcases Nat.le_total x (t.foldr max 0) with h2 | h2
      · rw [Nat.max_eq_right h2]
        exact Or.inr (List.mem_cons_of_mem _ h)
      · rw [Nat.max_eq_left h2]
        exact Or.inr (List.mem_cons_self _ _)

theorem le_foldr_max : ∀ l : List ℕ, ∀ x ∈ l, x ≤ l.foldr max 0
  | [], x, hx => absurd hx (List.not_mem_nil x)
  | y :: t, x, hx => by
    rw [List.foldr_cons]
    rcases List.mem_cons.1 hx with rfl | h
    · exact Nat.le_max_left _ _
    · exact le_trans (le_foldr_max t x h) (Nat.le_max_right _ _)

theorem npMedian_const (l : List ℚ) (v : ℚ) (hne : ¬(l = [])) (h : ∀ x ∈ l, x = v) :
    npMedian l = v := by
  simp only [npMedian]
  set s := List.insertionSort (fun a b : ℚ => a ≤ b) l with hs
  have hall : ∀ x ∈ s, x = v := by
    intro x hx
    exact h x ((List.perm_insertionSort _ l).mem_iff.1 hx)
  have hlen : s.length = l.length := (List.perm_insertionSort _ l).length_eq
  have hl0 : ¬(s.length = 0) := by
    rw [hlen]
    exact fun e => hne (List.length_eq_zero.1 e)
  rw [if_neg hl0]
  have h1 : s.length / 2 < s.length := Nat.div_lt_self (Nat.pos_of_ne_zero hl0) one_lt_two
  by_cases hodd : s.length % 2 = 1
  · rw [if_pos hodd]
    exact getD_all_eq hall h1
  · rw [if_neg hodd]
    have h2 : s.length / 2 - 1 < s.length := lt_of_le_of_lt (Nat.sub_le _ _) h1
    rw [getD_all_eq hall h1, getD_all_eq hall h2]
    ring

theorem mem_flatten_map_map {f : ℕ → ℕ} {img : List (List ℕ)} {p : ℕ}
    (hp : p ∈ (img.map (fun row => row.map f)).flatten) :
    ∃ q ∈ img.flatten, p = f q := by
  rcases List.mem_flatten.1 hp with ⟨row, hrow, hpr⟩
  rcases List.mem_map.1 hrow with ⟨row0, hrow0, rfl⟩
  rcases List.mem_map.1 hpr with ⟨q, hq, rfl⟩
  exact ⟨q, List.mem_flatten.2 ⟨row0, hrow0, hq⟩, rfl⟩

/-- On a uniform image of intensity `v ≠ 1` (in particular all-background
`v = 0` and all-foreground `v = 255`), the internal binarization of
`correct_skew` yields the all-zero image: either the median threshold `v`
satisfies `v > v` for no pixel, or `v = 0` and the `*255` cast keeps 0. -/
theorem skewBinarize_degenerate {img : List (List ℕ)} {v : ℕ}
    (hv : ∀ p ∈ img.flatten, p = v) (hv1 : ¬(v = 1)) :
    ∀ p ∈ (skewBinarize img).flatten, p = 0 := by
  intro p hp
  by_cases hm : 1 < maxPixel img
  · have hflat_ne : ¬(img.flatten = []) := by
      intro e
      rw [maxPixel, e] at hm
      exact absurd hm (by decide)
    have hmem : maxPixel img ∈ img.flatten := by
      rcases foldr_max_mem img.flatten with h0 | h0
      · rw [maxPixel] at hm
        omega
      · exact h0
    have hmed : npMedian (img.flatten.map (fun (q : ℕ) => (q : ℚ))) = (v : ℚ) := by
      apply npMedian_const
      · intro e
        exact hflat_ne (List.map_eq_nil_iff.1 e)
      · intro x hx
        rcases List.mem_map.1 hx with ⟨q, hq, rfl⟩
        rw [hv q hq]
    have hsb : skewBinarize img = img.map (fun row => row.map (fun (q : ℕ) =>
        if npMedian (img.flatten.map (fun (q2 : ℕ) => (q2 : ℚ))) < (q : ℚ)
        then 255 else 0)) := by
      simp only [skewBinarize, if_pos hm]
    rw [hsb] at hp
    rcases mem_flatten_map_map hp with ⟨q, hq, rfl⟩
    rw [hmed, hv q hq, if_neg (lt_irrefl ((v : ℕ) : ℚ))]
  · have hsb : skewBinarize img = img.map (fun row => row.map (fun q =>
        (q * 255) % 256)) := by
      simp only [skewBinarize, if_neg hm]
    rw [hsb] at hp
    rcases mem_flatten_map_map hp with ⟨q, hq, rfl⟩
    have hqv := hv q hq
    have hle := le_foldr_max img.flatten q hq
    rw [maxPixel] at hm
    have hq0 : q = 0 := by omega
    rw [hq0]

/-- The content of the amended C3, shared by the claim theorem and the
counterexample: the skew estimator of `correct_skew` has no degenerate-case
guard, and on any image whose internal binarization is all-background the
profile-energy vector is identically zero, so `np.argmax` returns the first
candidate angle 0° and the estimated skew is `-(90 - 0) = -90`, not 0. -/
theorem skew_degenerate_aux (radonM : List (List ℕ) → ℕ → List ℚ)
    (img : List (List ℕ)) (v : ℕ)
    (hv : ∀ p ∈ img.flatten, p = v) (hv1 : ¬(v = 1))
    (hz : ∀ M θ, (∀ p ∈ M.flatten, p = 0) → ∀ x ∈ radonM M θ, x = 0) :
    skew_angle radonM img = -90 := by
  have hbin := skewBinarize_degenerate hv hv1
  have hprof : ∀ x ∈ rProfileSq radonM (skewBinarize img), x = 0 := by
    intro x hx
    rw [rProfileSq] at hx
    rcases List.mem_map.1 hx with ⟨θ, _, rfl⟩
    exact meanSq_zero _ (hz _ θ hbin)
  rw [skew_angle, rotationAngleRadon, argmaxIdx_zero _ hprof]
  rfl

/-- C3 counterexample: on the all-background 2×2 image the estimated skew
angle is −90, not 0 — `correct_skew` applies a −90° rotation to a blank
image instead of the identity. -/
theorem skew_degenerate_counterexample :
    skew_angle radonShear [[0, 0], [0, 0]] = -90 ∧ ¬((-90 : ℤ) = 0) :=
  ⟨skew_degenerate_aux radonShear [[0, 0], [0, 0]] 0 (by decide) (by decide)
      radonShear_zero,
    by decide⟩

/-- C3 (amended): for every degenerate image that the internal
median-thresholding maps to all-background (any uniform image of intensity
`v ≠ 1`, covering all-background and all-foreground uint8 inputs), the skew
estimator inside `correct_skew` yields −90 — the argmax of the identically
zero energy profile is the first candidate angle — rather than the claimed
0; this holds for every projection operator that maps the zero image to
zero profiles, as the Radon transform does. -/
theorem skew_estimation_degenerate (radonM : List (List ℕ) → ℕ → List ℚ)
    (img : List (List ℕ)) (v : ℕ)
    (hv : ∀ p ∈ img.flatten, p = v) (hv1 : ¬(v = 1))
    (hz : ∀ M θ, (∀ p ∈ M.flatten, p = 0) → ∀ x ∈ radonM M θ, x = 0) :
    skew_angle radonM img = -90 :=
  skew_degenerate_aux radonM img v hv hv1 hz

/-- Witness for the amended C3. -/
theorem skew_estimation_degenerate_witness :
    ((∀ p ∈ ([[0, 0], [0, 0]] : List (List ℕ)).flatten, p = 0) ∧ ¬((0 : ℕ) = 1))
    ∧ skew_angle radonShear [[0, 0], [0, 0]] = -90 :=
  ⟨⟨by decide, by decide⟩,
    skew_estimation_degenerate radonShear [[0, 0], [0, 0]] 0 (by decide) (by decide)
      radonShear_zero⟩

end OcrProj
